import Mathlib

set_option maxRecDepth 100000

/-!
Verification of the pluribus core against its specification.

Strings from the Python source are modelled as `List Char`.  The character
classes of Python's `re` module in its default (Unicode) string mode are
tabulated exactly over the code points below 0x100 (ASCII plus Latin-1);
code points at or above 0x100 are treated as plain non-word, non-space,
non-digit characters.  All inputs exercised by the claims lie in that range.
`\d` is modelled as the ASCII digits, matching `int()` on the captured
group.  Timestamps (`datetime.now`) are side effects carrying no decision
logic; fields holding them are omitted from the records below.
-/

namespace Pluribus

/-- Python `\s` (whitespace) for code points below 0x100:
space, tab, newline, vertical tab, form feed, carriage return,
the file/group/record/unit separators 0x1c-0x1f, next-line 0x85 and
no-break space 0xa0. -/
def isPySpace (c : Char) : Bool :=
  (9 ≤ c.toNat && c.toNat ≤ 13) || c.toNat = 32 ||
  (28 ≤ c.toNat && c.toNat ≤ 31) || c.toNat = 133 || c.toNat = 160

/-- Python `\w` (word characters) for code points below 0x100: ASCII
alphanumerics and underscore, plus the Latin-1 letters and numeric signs
(ª ² ³ µ ¹ º ¼ ½ ¾ and the letter ranges 0xc0-0xd6, 0xd8-0xf6, 0xf8-0xff). -/
def isWordChar (c : Char) : Bool :=
  (48 ≤ c.toNat && c.toNat ≤ 57) || (65 ≤ c.toNat && c.toNat ≤ 90) ||
  (97 ≤ c.toNat && c.toNat ≤ 122) || c = '_' ||
  c.toNat = 0xaa || c.toNat = 0xb2 || c.toNat = 0xb3 || c.toNat = 0xb5 ||
  c.toNat = 0xb9 || c.toNat = 0xba || c.toNat = 0xbc || c.toNat = 0xbd ||
  c.toNat = 0xbe ||
  (0xc0 ≤ c.toNat && c.toNat ≤ 0xd6) ||
  (0xd8 ≤ c.toNat && c.toNat ≤ 0xf6) ||
  (0xf8 ≤ c.toNat && c.toNat ≤ 0xff)

/-- Python `str.lower` for code points below 0x100: ASCII A-Z and the
Latin-1 uppercase letters 0xc0-0xde (except the multiplication sign 0xd7)
map down by 0x20; everything else is fixed. -/
def pyToLower (c : Char) : Char :=
  if 65 ≤ c.toNat && c.toNat ≤ 90 then Char.ofNat (c.toNat + 32)
  else if 0xc0 ≤ c.toNat && c.toNat ≤ 0xde && c.toNat ≠ 0xd7 then
    Char.ofNat (c.toNat + 32)
  else c

/-- Replace each maximal run of characters satisfying `p` by the single
character `rep`.  The flag records whether the previous character was in a
run.  `collapseRuns isPySpace '-' false` models `re.sub(r'[\s]+', '-', s)`
and `collapseRuns (fun c => c = '-') '-' false` models `re.sub(r'-+', '-', s)`. -/
def collapseRuns (p : Char → Bool) (rep : Char) : Bool → List Char → List Char
  | _, [] => []
  | inRun, c :: r =>
    if p c then
      if inRun then collapseRuns p rep true r
      else rep :: collapseRuns p rep true r
    else c :: collapseRuns p rep false r

/-- Python `s.strip(chars)` restricted to a single predicate: drop matching
characters from both ends. -/
def stripEnds (p : Char → Bool) (s : List Char) : List Char :=
  ((s.dropWhile p).reverse.dropWhile p).reverse

/-- Model of `tasks.task_to_branch_name` up to the `pluribus/` prefix and
suffix: `re.sub(r'[^\w\s-]', '', task_name.lower())`, then whitespace runs
to hyphens, hyphen runs collapsed, hyphens stripped from both ends. -/
def normalizeBody (name : List Char) : List Char :=
  stripEnds (fun c => c = '-')
    (collapseRuns (fun c => c = '-') '-' false
      (collapseRuns isPySpace '-' false
        ((name.map pyToLower).filter
          (fun c => isWordChar c || isPySpace c || c = '-'))))

/-- Model of `tasks.task_to_branch_name` (with explicit suffix):
`"pluribus/" + branch + "-" + unique_suffix`. -/
def task_to_branch_name (name suffix : List Char) : List Char :=
  "pluribus/".data ++ (normalizeBody name ++ '-' :: suffix)

/-- Python `s.replace('pluribus/', '')`: remove every (non-overlapping,
left-to-right) occurrence of the literal `pluribus/`. -/
def replacePluribus : List Char → List Char
  | 'p' :: 'l' :: 'u' :: 'r' :: 'i' :: 'b' :: 'u' :: 's' :: '/' :: r =>
    replacePluribus r
  | c :: r => c :: replacePluribus r
  | [] => []

/-- The character class `[\w-]` kept by `task_to_slug`. -/
def wordHyph (c : Char) : Bool := isWordChar c || c = '-'

/-- Model of `tasks.task_to_slug` (with explicit suffix):
`re.sub(r'[^\w-]', '', task_to_branch_name(...).replace('pluribus/', ''))`. -/
def task_to_slug (name suffix : List Char) : List Char :=
  (replacePluribus (task_to_branch_name name suffix)).filter wordHyph

/-- Consume the literal `p` case-insensitively at the head of `s`
(both sides compared through `pyToLower`, as `re.IGNORECASE` does);
return the remainder on success. -/
def dropCI : List Char → List Char → Option (List Char)
  | [], s => some s
  | _ :: _, [] => none
  | p :: ps, c :: cs =>
    if pyToLower c = pyToLower p then dropCI ps cs else none

/-- Python `\d`: the ASCII digits (see the header note). -/
def isDigitCh (c : Char) : Bool := 48 ≤ c.toNat && c.toNat ≤ 57

/-- Match `\d+%` at the head of `s`: a non-empty maximal ASCII digit run
immediately followed by `'%'`; return the numeric value of the run (the
greedy `\d+` never succeeds after giving back characters here, because a
shortened run is followed by a digit, never by `'%'`). -/
def digitsPercent (s : List Char) : Option Nat :=
  let ds := s.takeWhile isDigitCh
  if ds = [] then none
  else if (s.dropWhile isDigitCh).head? = some '%' then
    some (ds.foldl (fun a c => 10 * a + (c.toNat - 48)) 0)
  else none

/-- Whether a scan position is at a `re.MULTILINE` line start: start of the
string, or just after a newline.  The argument is the previous character. -/
def lineStart : Option Char → Bool
  | none => true
  | some c => c = '\n'

/-- Alternative `^(\d+)%` of the progress regex at the current position. -/
def altCaret (prev : Option Char) (s : List Char) : Option Nat :=
  if lineStart prev then digitsPercent s else none

/-- Alternative `\s(\d+)%` of the progress regex at the current position. -/
def altSpace : List Char → Option Nat
  | [] => none
  | c :: r => if isPySpace c then digitsPercent r else none

/-- Alternative `Completed\s(\d+)%` of the progress regex at the current
position (the literal matched case-insensitively). -/
def altCompleted (s : List Char) : Option Nat :=
  match dropCI "completed".data s with
  | some (c :: r) => if isPySpace c then digitsPercent r else none
  | _ => none

/-- One attempt of `re.search(r"(?:^|\s|Completed\s)(\d+)%", ...)` at a
fixed start position, trying the three alternatives in regex order. -/
def matchHere (prev : Option Char) (s : List Char) : Option Nat :=
  match altCaret prev s with
  | some v => some v
  | none =>
    match altSpace s with
    | some v => some v
    | none => altCompleted s

/-- The full `re.search` scan for the progress regex: try each start
position from left to right, returning the group of the leftmost match. -/
def progressScan : Option Char → List Char → Option Nat
  | prev, [] => matchHere prev []
  | prev, c :: r =>
    match matchHere prev (c :: r) with
    | some v => some v
    | none => progressScan (some c) r

/-- A keyword of the phase regexes: the literal, and whether the regex
closes it with a trailing `\b` (`\bverif` has none). -/
structure KwPat where
  kw : List Char
  closed : Bool
deriving DecidableEq

/-- Whether `k` matches at the current position: a leading `\b` (the
previous character, if any, is not a word character — every keyword starts
with a letter), the literal case-insensitively, and for closed keywords a
trailing `\b` (next character absent or not a word character). -/
def kwMatchAt (k : KwPat) (prev : Option Char) (s : List Char) : Bool :=
  (match prev with
   | none => true
   | some c => !isWordChar c) &&
  (match dropCI k.kw s with
   | none => false
   | some rest =>
     !k.closed ||
     (match rest.head? with
      | none => true
      | some c => !isWordChar c))

/-- `re.search` existence for one keyword: scan every start position. -/
def containsKw (k : KwPat) : Option Char → List Char → Bool
  | prev, [] => kwMatchAt k prev []
  | prev, c :: r => kwMatchAt k prev (c :: r) || containsKw k (some c) r

/-- Whether any keyword of one phase pattern matches somewhere in `t`,
i.e. `re.search(pattern, t, re.IGNORECASE)` succeeds. -/
def anyKw (ks : List KwPat) (t : List Char) : Bool :=
  ks.any (fun k => containsKw k none t)

/-- The phase pattern table of `extract_progress_signals`, in source order:
`("complete", r"\bcomplete\b|\bdone\b|\bfinish\b")`, etc. -/
def phasePatterns : List (String × List KwPat) :=
  [("complete", [⟨"complete".data, true⟩, ⟨"done".data, true⟩,
                 ⟨"finish".data, true⟩]),
   ("testing", [⟨"test".data, true⟩, ⟨"debug".data, true⟩,
                ⟨"verif".data, false⟩]),
   ("implementation", [⟨"implement".data, true⟩, ⟨"building".data, true⟩,
                       ⟨"coding".data, true⟩, ⟨"writing".data, true⟩]),
   ("planning", [⟨"planning".data, true⟩, ⟨"design".data, true⟩,
                 ⟨"architecture".data, true⟩, ⟨"spec".data, true⟩])]

/-- The phase loop of `extract_progress_signals`: walk the pattern table
in order, stopping (`break`) at the first whose regex matches. -/
def firstPhase (t : List Char) : List (String × List KwPat) → String
  | [] => "in_progress"
  | p :: ps => if anyKw p.2 t then p.1 else firstPhase t ps

/-- The phase of `extract_progress_signals`: first matching pattern of the
table, default `"in_progress"`. -/
def phaseSearch (t : List Char) : String := firstPhase t phasePatterns

/-- Python `result_text.split('\n')`. -/
def splitNl : List Char → List (List Char)
  | [] => [[]]
  | c :: r =>
    if c = '\n' then [] :: splitNl r
    else
      match splitNl r with
      | h :: t => (c :: h) :: t
      | [] => [[c]]

/-- Python `str.strip()`: whitespace removed from both ends. -/
def pyStrip (s : List Char) : List Char := stripEnds isPySpace s

/-- Python `' '.join(lines)`. -/
def joinSp : List (List Char) → List Char
  | [] => []
  | [l] => l
  | l :: l2 :: r => l ++ ' ' :: joinSp (l2 :: r)

/-- The summary loop of `extract_progress_signals`: for each line, strip
it; append it while it is non-empty and
`len(' '.join(summary_lines) + ' ' + line) < 200`; `break` otherwise. -/
def summaryLoop (acc : List (List Char)) : List (List Char) → List (List Char)
  | [] => acc
  | l :: r =>
    let l' := pyStrip l
    if l' ≠ [] && (joinSp acc).length + 1 + l'.length < 200 then
      summaryLoop (acc ++ [l']) r
    else acc

/-- The record returned by `extract_progress_signals`. -/
structure ProgressSignals where
  progress_percent : Nat
  phase : String
  work_summary : List Char
deriving DecidableEq

/-- Model of `agent_output.extract_progress_signals`.  `none` models a
`None` result text; `if not result_text` also catches the empty string. -/
def extract_progress_signals : Option (List Char) → ProgressSignals
  | none => ⟨0, "in_progress", []⟩
  | some t =>
    if t = [] then ⟨0, "in_progress", []⟩
    else
      { progress_percent := (progressScan none t).getD 0
        phase := phaseSearch t
        work_summary := (joinSp (summaryLoop [] (splitNl t))).take 200 }

/-- Lazy group scan for a pattern `L(.+?)R` that already consumed `L`:
find the shortest non-empty run of non-newline characters (`.` does not
match `'\n'`) after which the literal `R` matches case-insensitively.
Returns the captured group and the remainder after `R`. -/
def lazyScan (R : List Char) : List Char → Option (List Char × List Char)
  | [] => none
  | c :: r =>
    if c = '\n' then none
    else
      match dropCI R r with
      | some rest => some ([c], rest)
      | none =>
        match lazyScan R r with
        | some (g, rest) => some (c :: g, rest)
        | none => none

/-- Try the pattern `L(.+?)R` at a fixed start position. -/
def matchLazyAt (L R s : List Char) : Option (List Char × List Char) :=
  match dropCI L s with
  | some s1 => lazyScan R s1
  | none => none

/-- `re.finditer` for a pattern `L(.+?)R`: scan start positions left to
right, collecting the groups of non-overlapping matches (each match
consumes at least one character, so the fuel `s.length` suffices and the
function returns exactly the matches of the unbounded scan). -/
def fiGo (L R : List Char) : Nat → List Char → List (List Char)
  | 0, _ => []
  | fuel + 1, s =>
    match matchLazyAt L R s with
    | some (g, rest) => g :: fiGo L R fuel rest
    | none =>
      match s with
      | [] => []
      | _ :: r => fiGo L R fuel r

/-- All groups of `re.finditer(L(.+?)R, t, re.IGNORECASE)` in order. -/
def finditerLazy (L R t : List Char) : List (List Char) :=
  fiGo L R t.length t

/-- One detected intervention.  The real dicts carry a current timestamp
(no decision logic) and the `ask_user_question` shape stores the payload
under `"question"` with an `"options": []` entry while `permission_grant`
stores it under `"description"`; `payload` holds that text for either
shape. -/
structure Intervention where
  itype : String
  payload : List Char
  options : List (List Char)
  blocking : Bool
  answered : Bool
deriving DecidableEq

/-- The dedup key of `detect_interventions`:
`(interv.get("question") or interv.get("description"), interv["type"])`.
Both groups come from `(.+?)`, hence are non-empty, so the Python `or`
always selects the payload of the entry itself. -/
def keyOf (i : Intervention) : List Char × String := (i.payload, i.itype)

/-- The dedup loop of `detect_interventions`: keep the first entry for
each key, remembering seen keys. -/
def dedupBy (seen : List (List Char × String)) :
    List Intervention → List Intervention
  | [] => []
  | i :: r =>
    if keyOf i ∈ seen then dedupBy seen r
    else i :: dedupBy (keyOf i :: seen) r

/-- The `ask_patterns` table, each regex split as literal-prefix `L`,
lazy group, literal-suffix `R`. -/
def askPatterns : List (List Char × List Char) :=
  [("I found these tasks in ".data, ". Should I execute them?".data),
   ("Can you confirm ".data, "?".data),
   ("Should I proceed with ".data, "?".data),
   ("I need permission to ".data, ".".data)]

/-- The `permission_patterns` table in the same split form;
`r"Permission required: (.+?)"` has an empty suffix, so its lazy group is
a single character. -/
def permPatterns : List (List Char × List Char) :=
  [("Please grant permission to ".data, ".".data),
   ("I cannot ".data, ". Permission denied.".data),
   ("Permission required: ".data, [])]

/-- Build an `ask_user_question` intervention from a captured group. -/
def mkAsk (q : List Char) : Intervention :=
  ⟨"ask_user_question", q, [], false, false⟩

/-- Build a `permission_grant` intervention from a captured group. -/
def mkPerm (d : List Char) : Intervention :=
  ⟨"permission_grant", d, [], true, false⟩

/-- Model of `agent_output.detect_interventions`: run the ask patterns,
then the permission patterns, appending all matches in order, then
deduplicate by `(payload, type)` keeping first occurrences. -/
def detect_interventions : Option (List Char) → List Intervention
  | none => []
  | some t =>
    if t = [] then []
    else
      dedupBy []
        ((askPatterns.flatMap fun p => (finditerLazy p.1 p.2 t).map mkAsk) ++
         (permPatterns.flatMap fun p => (finditerLazy p.1 p.2 t).map mkPerm))

/-- The dict built by `extract_error_from_output` (timestamp omitted). -/
structure ErrorInfo where
  etype : String
  message : List Char
deriving DecidableEq

/-- The parsed `agent-output.json` envelope.  A worktree is modelled by
`Option Envelope`: `none` stands for a missing or malformed file, for
which every extractor returns `None`. -/
structure Envelope where
  session_id : Option (List Char)
  result : Option (List Char)
  error : Option (List Char)
deriving DecidableEq

/-- Model of `agent_output.extract_session_id_from_json`. -/
def extract_session_id_from_json (o : Option Envelope) : Option (List Char) :=
  o.bind Envelope.session_id

/-- Model of `agent_output.extract_result_from_json`. -/
def extract_result_from_json (o : Option Envelope) : Option (List Char) :=
  o.bind Envelope.result

/-- Model of `agent_output.extract_error_from_output`: if the envelope has
an `error` field, wrap it as `{"type": "agent_error", "message": ...}`. -/
def extract_error_from_output (o : Option Envelope) : Option ErrorInfo :=
  (o.bind Envelope.error).map fun m => ⟨"agent_error", m⟩

/-- The dict returned by `process_agent_output`. -/
structure AgentOutputData where
  session_id : Option (List Char)
  interventions : List Intervention
  progress_percent : Nat
  phase : String
  work_summary : List Char
  error : Option ErrorInfo
deriving DecidableEq

/-- Model of `agent_output.process_agent_output`: the result dict starts
with the extracted session id and empty defaults; on an error it is
returned immediately, otherwise interventions and progress signals are
filled in from the result text. -/
def process_agent_output (o : Option Envelope) : AgentOutputData :=
  let sid := extract_session_id_from_json o
  match extract_error_from_output o with
  | some e => ⟨sid, [], 0, "in_progress", [], some e⟩
  | none =>
    let rt := extract_result_from_json o
    let ivs := detect_interventions rt
    let ps := extract_progress_signals rt
    ⟨sid, ivs, ps.progress_percent, ps.phase, ps.work_summary, none⟩

/-- The `updates` mapping built by `process_completed_agent_run`.  A field
of type `Option _` with value `none` models a key absent from the dict
(and hence left untouched by the Status Store merge). -/
structure StatusUpdates where
  claude_instance_active : Bool
  progress_percent : Nat
  phase : String
  work_summary : List Char
  session_id : Option (List Char)
  interventions : Option (List Intervention)
  status : Option String
  blockers : Option ErrorInfo
deriving DecidableEq

/-- Model of `post_run.process_completed_agent_run` up to the final
`status_file.update(updates)` call: the updates dict it builds.
`session_id` is added only when truthy (present and non-empty), and
`interventions` only when non-empty; on an error, `status` and `blockers`
are set; otherwise `status` is set to `awaiting_input` exactly when
interventions were detected (the `get_status` read in the source has no
effect on the updates and is omitted). -/
def build_status_updates (o : Option Envelope) : StatusUpdates :=
  let d := process_agent_output o
  { claude_instance_active := false
    progress_percent := d.progress_percent
    phase := d.phase
    work_summary := d.work_summary
    session_id :=
      match d.session_id with
      | some s => if s ≠ [] then some s else none
      | none => none
    interventions := if d.interventions ≠ [] then some d.interventions else none
    status :=
      match d.error with
      | some _ => some "blocked"
      | none =>
        if d.interventions ≠ [] then some "awaiting_input" else none
    blockers :=
      match d.error with
      | some e => some e
      | none => none }

/-- Modelled from the spec: the repository's `status_file.py` (class
`StatusFile`, the Status Store) is not under `src/`; only its callers are.
Per §4.4 a record is a JSON-like document of fields plus `last_update`;
fields are modelled as an association list from field name to values of an
arbitrary type, earliest binding visible. -/
structure StoreRecord (α : Type) where
  fields : List (String × α)
  last_update : Nat
deriving DecidableEq

/-- Modelled from the spec: reading one field of a record. -/
def storeGet {α : Type} (rec : StoreRecord α) (k : String) : Option α :=
  (rec.fields.find? (fun kv => kv.1 = k)).map (fun kv => kv.2)

/-- Modelled from the spec: overlay one provided field, replacing an
existing binding or appending a new one. -/
def setField {α : Type} : List (String × α) → String → α → List (String × α)
  | [], k, v => [(k, v)]
  | kv :: r, k, v =>
    if kv.1 = k then (k, v) :: r else kv :: setField r k v

/-- Modelled from the spec: `StatusFile.update(partial)` "performs a
read-modify-write merge: load current record (or an empty one), overlay
provided fields, set `last_update=now`, persist atomically". -/
def storeUpdate {α : Type} (rec : StoreRecord α) (upd : List (String × α))
    (now : Nat) : StoreRecord α :=
  { fields := upd.foldl (fun fs kv => setField fs kv.1 kv.2) rec.fields
    last_update := now }

/-- Modelled from the spec: a fresh, empty record. -/
def emptyRecord (α : Type) : StoreRecord α := ⟨[], 0⟩

/-- Claim-side reading of C4: "the first integer in the text that is
immediately followed by `%`", with no condition on what precedes it. -/
def naiveScan : List Char → Option Nat
  | [] => none
  | c :: r =>
    match digitsPercent (c :: r) with
    | some v => some v
    | none => naiveScan r

/-- Whether the previous character admits a digit run here under the
progress regex: start of string, or any whitespace character (a
`re.MULTILINE` line start is the string start or a preceding newline,
itself whitespace; the `Completed\s` alternative also ends in
whitespace). -/
def prevOK : Option Char → Bool
  | none => true
  | some c => isPySpace c

/-- Declarative counterpart of the progress search, used by the amended
C4: the value of the first (leftmost) digit run that is immediately
followed by `'%'` and immediately preceded by the start of the string or a
whitespace character. -/
def specFind : Option Char → List Char → Option Nat
  | _, [] => none
  | prev, c :: r =>
    match (if prevOK prev then digitsPercent (c :: r) else none) with
    | some v => some v
    | none => specFind (some c) r

/-- Claim-side reading of C6: stripped lines accumulated greedily from the
start for as long as the joined length stays under 200 characters, with no
other stopping condition. -/
def claimSummaryAux (acc : List (List Char)) :
    List (List Char) → List (List Char)
  | [] => acc
  | l :: r =>
    let l' := pyStrip l
    if (joinSp (acc ++ [l'])).length < 200 then claimSummaryAux (acc ++ [l']) r
    else acc

/-- Claim-side reading of C6, assembled: the space-join of the accumulated
lines, hard-truncated to 200 characters. -/
def claimC6Summary (t : List Char) : List Char :=
  (joinSp (claimSummaryAux [] (splitNl t))).take 200

/-- Amended C6 accounting: the summary loop re-derived with an explicit
length counter.  A line is taken while it strips to something non-empty
and `used + 1 + |line|` stays under 200, where `used` is the length of the
join built so far (so a first line longer than 198 characters is already
rejected); the loop stops at the first line that fails. -/
def specSummaryAux (used : Nat) : List (List Char) → List (List Char)
  | [] => []
  | l :: r =>
    let l' := pyStrip l
    if l' = [] then []
    else if used + 1 + l'.length < 200 then
      l' :: specSummaryAux (if used = 0 then l'.length
                            else used + 1 + l'.length) r
    else []

/-- Amended C6 summary, assembled. -/
def specSummary (t : List Char) : List Char :=
  (joinSp (specSummaryAux 0 (splitNl t))).take 200

/-- Claim-side reading of C7: keep only characters in `[a-z0-9_\s-]`
(instead of the source's `[\w\s-]`) before collapsing and trimming. -/
def claimKeep (c : Char) : Bool :=
  ('a' ≤ c && c ≤ 'z') || c.isDigit || c = '_' || isPySpace c || c = '-'

/-- Claim-side reading of C7, assembled: lowercase, drop characters
outside `[a-z0-9_\s-]`, collapse whitespace runs to hyphens, collapse
hyphen runs, trim hyphens. -/
def c7ClaimBody (name : List Char) : List Char :=
  stripEnds (fun c => c = '-')
    (collapseRuns (fun c => c = '-') '-' false
      (collapseRuns isPySpace '-' false
        ((name.map pyToLower).filter claimKeep)))

/-- The character class `[a-z0-9_-]` of C7's consequence. -/
def slugAscii (c : Char) : Bool :=
  ('a' ≤ c && c ≤ 'z') || c.isDigit || c = '_' || c = '-'

/-! Helper lemmas about the identifier normalization. -/

theorem mem_stripEnds {p : Char → Bool} {a : Char} {s : List Char}
    (h : a ∈ stripEnds p s) : a ∈ s := by
  unfold stripEnds at h
  rw [List.mem_reverse] at h
  have h2 := (List.dropWhile_sublist (l := (s.dropWhile p).reverse)
    (p := p)).mem h
  rw [List.mem_reverse] at h2
  exact (List.dropWhile_sublist (l := s) (p := p)).mem h2

theorem mem_collapseRuns {p : Char → Bool} {rep a : Char} :
    ∀ {l : List Char} {flag : Bool}, a ∈ collapseRuns p rep flag l →
      a = rep ∨ (a ∈ l ∧ p a = false)
  | [], _, h => by simp [collapseRuns] at h
  | c :: r, flag, h => by
    rw [collapseRuns] at h
    by_cases hpc : p c = true
    · rw [if_pos hpc] at h
      cases flag with
      | true =>
        rcases mem_collapseRuns (l := r) h with h1 | ⟨h2, h3⟩
        · exact Or.inl h1
        · exact Or.inr ⟨List.mem_cons_of_mem c h2, h3⟩
      | false =>
        rcases List.mem_cons.1 h with h1 | h1
        · exact Or.inl h1
        · rcases mem_collapseRuns (l := r) h1 with h2 | ⟨h3, h4⟩
          · exact Or.inl h2
          · exact Or.inr ⟨List.mem_cons_of_mem c h3, h4⟩
    · rw [if_neg hpc] at h
      rcases List.mem_cons.1 h with h1 | h1
      · subst h1
        exact Or.inr ⟨List.mem_cons_self a r, Bool.not_eq_true (p a) ▸ hpc⟩
      · rcases mem_collapseRuns (l := r) h1 with h2 | ⟨h3, h4⟩
        · exact Or.inl h2
        · exact Or.inr ⟨List.mem_cons_of_mem c h3, h4⟩

theorem mem_normalizeBody {a : Char} {name : List Char}
    (h : a ∈ normalizeBody name) : wordHyph a = true := by
  unfold normalizeBody at h
  have h1 := mem_stripEnds h
  rcases mem_collapseRuns h1 with h2 | ⟨h2, _⟩
  · simp [wordHyph, h2]
  rcases mem_collapseRuns h2 with h3 | ⟨h3, h4⟩
  · simp [wordHyph, h3]
  have h5 := List.of_mem_filter h3
  rcases Bool.or_eq_true_iff.1 h5 with h6 | h6
  · rcases Bool.or_eq_true_iff.1 h6 with h7 | h7
    · simp [wordHyph, h7]
    · rw [h7] at h4; exact absurd h4 (by simp)
  · simp [wordHyph, h6]

theorem replacePluribus_drop_head (t : List Char) :
    replacePluribus ("pluribus/".data ++ t) = replacePluribus t := rfl

theorem replacePluribus_absent {t : List Char} (h : ∀ c ∈ t, c ≠ '/') :
    replacePluribus t = t := by
  induction t using replacePluribus.induct with
  | case1 r ih => exact absurd rfl (h '/' (by simp))
  | case2 c r hne ih =>
    rw [replacePluribus]
    · rw [ih (fun x hx => h x (List.mem_cons_of_mem c hx))]
    · exact hne
  | case3 => rfl

/-- Claim C3 (corrected): for every task name, and every suffix whose
characters all lie in `[\w-]` (in particular the generated lowercase
alphanumeric suffixes), `task_to_branch_name` is byte for byte
`"pluribus/"` followed by `task_to_slug`.  The restriction on the suffix
is forced by `c3_counterexample`. -/
theorem c3_branch_slug_agree (name suffix : List Char)
    (h : ∀ c ∈ suffix, wordHyph c = true) :
    task_to_branch_name name suffix =
      "pluribus/".data ++ task_to_slug name suffix := by
  have hall : ∀ c ∈ normalizeBody name ++ '-' :: suffix, wordHyph c = true := by
    intro c hc
    rcases List.mem_append.1 hc with h1 | h1
    · exact mem_normalizeBody h1
    · rcases List.mem_cons.1 h1 with h2 | h2
      · subst h2; decide
      · exact h c h2
  have hslash : ∀ c ∈ normalizeBody name ++ '-' :: suffix, c ≠ '/' := by
    intro c hc he
    have := hall c hc
    subst he
    exact absurd this (by decide)
  unfold task_to_slug task_to_branch_name
  rw [replacePluribus_drop_head]
  rw [replacePluribus_absent hslash]
  rw [List.filter_eq_self.mpr hall]

/-- Witness for C3's theorem at a concrete task name and suffix. -/
theorem c3_branch_slug_agree_witness :
    (∀ c ∈ "abc12".data, wordHyph c = true) ∧
    task_to_branch_name "Add Database Migration".data "abc12".data =
      "pluribus/".data ++ task_to_slug "Add Database Migration".data "abc12".data :=
  ⟨by decide, c3_branch_slug_agree _ _ (by decide)⟩

/-- Counterexample to C3 as stated: for the suffix `"a!b"` the branch name
is `pluribus/task-a!b` while the slug is `task-ab`, so the two differ by
more than the prefix. -/
theorem c3_counterexample :
    ¬ (task_to_branch_name "task".data "a!b".data =
       "pluribus/".data ++ task_to_slug "task".data "a!b".data) := by decide

/-! Helper lemmas for the ASCII fragment of the normalization (C7). -/

theorem ascii_char_facts : ∀ n : Fin 128,
    ((isWordChar (pyToLower (Char.ofNat n.val)) ||
      isPySpace (pyToLower (Char.ofNat n.val)) ||
      (pyToLower (Char.ofNat n.val) = '-'))
        = claimKeep (pyToLower (Char.ofNat n.val)))
    ∧ (pyToLower (Char.ofNat n.val)).toNat < 128
    ∧ (claimKeep (pyToLower (Char.ofNat n.val)) = true →
       isPySpace (pyToLower (Char.ofNat n.val)) = false →
       slugAscii (pyToLower (Char.ofNat n.val)) = true) := by decide

theorem ascii_lower_facts (c : Char) (h : c.toNat < 128) :
    ((isWordChar (pyToLower c) || isPySpace (pyToLower c) ||
      (pyToLower c = '-')) = claimKeep (pyToLower c))
    ∧ (pyToLower c).toNat < 128
    ∧ (claimKeep (pyToLower c) = true → isPySpace (pyToLower c) = false →
       slugAscii (pyToLower c) = true) := by
  have h1 := ascii_char_facts ⟨c.toNat, h⟩
  rwa [Char.ofNat_toNat] at h1

/-- Claim C7 (corrected): for task names whose characters are all ASCII,
the normalized part of the branch name is exactly the claimed
normalization (lowercase, drop characters outside `[a-z0-9_\s-]`,
collapse whitespace to hyphens, collapse hyphen runs, trim hyphens), and
it consists only of characters from `[a-z0-9_-]`.  The ASCII restriction
is forced by `c7_counterexample`: the source keeps all of Python's `\w`,
not only `[a-z0-9_]`. -/
theorem c7_ascii_normalization (name : List Char)
    (h : ∀ c ∈ name, c.toNat < 128) :
    normalizeBody name = c7ClaimBody name ∧
    (normalizeBody name).all slugAscii = true := by
  have hfil : (name.map pyToLower).filter
      (fun c => isWordChar c || isPySpace c || (c = '-')) =
      (name.map pyToLower).filter claimKeep := by
    apply List.filter_congr
    intro c hc
    rcases List.mem_map.1 hc with ⟨c0, hc0, he⟩
    subst he
    simpa using (ascii_lower_facts c0 (h c0 hc0)).1
  constructor
  · unfold normalizeBody c7ClaimBody
    rw [hfil]
  · rw [List.all_eq_true]
    intro c hc
    have h1 := mem_stripEnds hc
    rcases mem_collapseRuns h1 with h2 | ⟨h2, _⟩
    · subst h2; decide
    rcases mem_collapseRuns h2 with h3 | ⟨h3, h4⟩
    · subst h3; decide
    have h5 := List.of_mem_filter h3
    have h6 := List.mem_of_mem_filter h3
    rcases List.mem_map.1 h6 with ⟨c0, hc0, he⟩
    subst he
    have hf := ascii_lower_facts c0 (h c0 hc0)
    have h7 : claimKeep (pyToLower c0) = true := by
      rw [← hf.1]; simpa using h5
    exact hf.2.2 h7 h4

/-- Witness for C7's theorem at a concrete ASCII task name. -/
theorem c7_ascii_normalization_witness :
    (∀ c ∈ "Hello  World!".data, c.toNat < 128) ∧
    (normalizeBody "Hello  World!".data = c7ClaimBody "Hello  World!".data ∧
     (normalizeBody "Hello  World!".data).all slugAscii = true) :=
  ⟨by decide, c7_ascii_normalization _ (by decide)⟩

/-- Counterexample to C7 as stated: for the task name `"é"` the source
keeps the character (it is a Python word character), so the normalized
part is `"é"`, which contains a character outside `[a-z0-9_-]`, while the
claimed normalization would remove it. -/
theorem c7_counterexample :
    normalizeBody "é".data = "é".data ∧
    ¬ ((normalizeBody "é".data).all slugAscii = true) ∧
    c7ClaimBody "é".data = [] := by decide

/-! Helper lemmas for the progress-percentage search (C4, C9). -/

theorem digitsPercent_cons_nondigit {c : Char} {r : List Char}
    (h : isDigitCh c = false) : digitsPercent (c :: r) = none := by
  simp [digitsPercent, List.takeWhile_cons, h]

theorem space_not_digit {c : Char} (h : isPySpace c = true) :
    isDigitCh c = false := by
  simp only [isPySpace, Bool.or_eq_true, Bool.and_eq_true,
    decide_eq_true_eq] at h
  rw [Bool.eq_false_iff]
  intro hc
  simp only [isDigitCh, Bool.and_eq_true, decide_eq_true_eq] at hc
  omega

theorem pyToLower_digit {c : Char} (h : isDigitCh c = true) :
    pyToLower c = c := by
  simp only [isDigitCh, Bool.and_eq_true, decide_eq_true_eq] at h
  unfold pyToLower
  rw [if_neg, if_neg]
  · simp only [Bool.and_eq_true, Bool.not_eq_true', decide_eq_true_eq,
      decide_eq_false_iff_not, Bool.and_eq_false_iff]
    omega
  · simp only [Bool.and_eq_true, decide_eq_true_eq]
    omega

theorem prevOK_of_lineStart {prev : Option Char}
    (h : lineStart prev = true) : prevOK prev = true := by
  cases prev with
  | none => rfl
  | some c =>
    simp only [lineStart, decide_eq_true_eq] at h
    subst h
    decide

theorem specFind_step {c : Char} {r : List Char} (h : isDigitCh c = false)
    (prev : Option Char) : specFind prev (c :: r) = specFind (some c) r := by
  rw [specFind, digitsPercent_cons_nondigit h]
  cases prevOK prev <;> simp

theorem dropCI_specFind {res : Option Nat} :
    ∀ (p : List Char) {s t : List Char}, dropCI p s = some t →
      (∀ q ∈ p, isDigitCh (pyToLower q) = false) →
      (∀ pr, specFind pr t = res) →
      ∀ prev, specFind prev s = res
  | [], s, t, hd, _, ht, prev => by
    simp only [dropCI, Option.some.injEq] at hd
    subst hd
    exact ht prev
  | q :: qs, s, t, hd, hq, ht, prev => by
    cases s with
    | nil => simp [dropCI] at hd
    | cons c cs =>
      rw [dropCI] at hd
      by_cases he : pyToLower c = pyToLower q
      · rw [if_pos he] at hd
        have hcd : isDigitCh c = false := by
          by_cases hdd : isDigitCh c = true
          · have hfix := pyToLower_digit hdd
            rw [hfix] at he
            have h2 : isDigitCh (pyToLower q) = true := by
              rw [← he]; exact hdd
            exact absurd h2
              (by simp [hq q (List.mem_cons_self q qs)])
          · exact Bool.not_eq_true (isDigitCh c) ▸ hdd
        rw [specFind_step hcd]
        exact dropCI_specFind qs hd
          (fun x hx => hq x (List.mem_cons_of_mem q hx)) ht (some c)
      · rw [if_neg he] at hd
        exact absurd hd (by simp)

theorem matchHere_none {prev : Option Char} {s : List Char}
    (h : matchHere prev s = none) :
    altCaret prev s = none ∧ altSpace s = none ∧ altCompleted s = none := by
  rw [matchHere] at h
  cases h1 : altCaret prev s <;> rw [h1] at h
  · cases h2 : altSpace s <;> rw [h2] at h
    · exact ⟨rfl, rfl, h⟩
    · exact absurd h (by simp)
  · exact absurd h (by simp)

theorem altCompleted_nil : altCompleted [] = none := by decide

theorem matchHere_nil (prev : Option Char) : matchHere prev [] = none := by
  cases hls : lineStart prev <;>
    simp [matchHere, altCaret, altSpace, altCompleted_nil, hls, digitsPercent]

theorem completed_chars_not_digit :
    ∀ q ∈ "completed".data, isDigitCh (pyToLower q) = false := by decide

/-- The engine scan of `(?:^|\s|Completed\s)(\d+)%` coincides with the
declarative first-valid-run search, under the invariant that when the
previous character is a non-newline whitespace character, the run starting
here was already taken by the `\s` alternative one position earlier (so
`digitsPercent` fails here). -/
theorem scan_eq : ∀ (s : List Char) (prev : Option Char),
    (∀ c0, prev = some c0 → isPySpace c0 = true → c0 ≠ '\n' →
      digitsPercent s = none) →
    progressScan prev s = specFind prev s
  | [], prev, _ => by
    rw [progressScan, matchHere_nil, specFind]
  | c :: r, prev, hside => by
    cases hm : matchHere prev (c :: r) with
    | some v =>
      simp only [progressScan, hm]
      rw [matchHere] at hm
      cases hca : altCaret prev (c :: r) with
      | some w =>
        simp only [hca, Option.some.injEq] at hm
        subst hm
        rw [altCaret] at hca
        cases hls : lineStart prev with
        | false => rw [if_neg (by simp [hls])] at hca; exact absurd hca (by simp)
        | true =>
          rw [if_pos hls] at hca
          have hval : specFind prev (c :: r) = some w := by
            rw [specFind, if_pos (prevOK_of_lineStart hls), hca]
          rw [hval]
      | none =>
        simp only [hca] at hm
        cases hsp : altSpace (c :: r) with
        | some w =>
          simp only [hsp, Option.some.injEq] at hm
          subst hm
          rw [altSpace] at hsp
          by_cases hc : isPySpace c = true
          · rw [if_pos hc] at hsp
            cases r with
            | nil => exact absurd hsp (by simp [digitsPercent])
            | cons x xs =>
              have hval : specFind prev (c :: x :: xs) = some w := by
                rw [specFind_step (space_not_digit hc), specFind,
                  if_pos (show prevOK (some c) = true by
                    simpa [prevOK] using hc), hsp]
              rw [hval]
          · rw [if_neg hc] at hsp
            exact absurd hsp (by simp)
        | none =>
          simp only [hsp] at hm
          rw [altCompleted] at hm
          cases hd : dropCI "completed".data (c :: r) with
          | none => rw [hd] at hm; exact absurd hm (by simp)
          | some u =>
            rw [hd] at hm
            cases u with
            | nil => exact absurd hm (by simp)
            | cons sp rest =>
              simp only at hm
              by_cases hspb : isPySpace sp = true
              · rw [if_pos hspb] at hm
                have hval : ∀ pr, specFind pr (sp :: rest) = some v := by
                  intro pr
                  rw [specFind_step (space_not_digit hspb)]
                  cases rest with
                  | nil => exact absurd hm (by simp [digitsPercent])
                  | cons x xs =>
                    rw [specFind,
                      if_pos (show prevOK (some sp) = true by
                        simpa [prevOK] using hspb), hm]
                exact (dropCI_specFind "completed".data hd
                  completed_chars_not_digit hval prev).symm
              · rw [if_neg hspb] at hm
                exact absurd hm (by simp)
    | none =>
      simp only [progressScan, hm]
      obtain ⟨hca, hsp, _⟩ := matchHere_none hm
      have hhead : (if prevOK prev = true then digitsPercent (c :: r)
          else none) = none := by
        cases hp : prevOK prev
        · rw [if_neg (by simp [hp])]
        · rw [if_pos rfl]
          cases prev with
          | none =>
            have hls : lineStart (none : Option Char) = true := rfl
            rw [altCaret, if_pos hls] at hca
            exact hca
          | some c0 =>
            by_cases hnl : c0 = '\n'
            · subst hnl
              rw [altCaret, if_pos (show lineStart (some '\n') = true
                from by decide)] at hca
              exact hca
            · exact hside c0 rfl (by simpa [prevOK] using hp) hnl
      rw [specFind, hhead]
      apply scan_eq r (some c)
      intro c0 heq hspc _
      injection heq with heq2
      subst heq2
      rw [altSpace, if_pos hspc] at hsp
      exact hsp

theorem dropCI_suffix :
    ∀ (p : List Char) {s t : List Char}, dropCI p s = some t → t <:+ s
  | [], s, t, h => by
    simp only [dropCI, Option.some.injEq] at h
    subst h
    exact List.suffix_refl s
  | q :: qs, s, t, h => by
    cases s with
    | nil => simp [dropCI] at h
    | cons c cs =>
      rw [dropCI] at h
      by_cases he : pyToLower c = pyToLower q
      · rw [if_pos he] at h
        exact (dropCI_suffix qs h).trans (List.suffix_cons c cs)
      · rw [if_neg he] at h
        exact absurd h (by simp)

theorem matchHere_run {prev : Option Char} {s : List Char} {v : Nat}
    (h : matchHere prev s = some v) :
    ∃ t, t <:+ s ∧ digitsPercent t = some v := by
  rw [matchHere] at h
  cases h1 : altCaret prev s with
  | some w =>
    simp only [h1, Option.some.injEq] at h
    subst h
    rw [altCaret] at h1
    cases hls : lineStart prev with
    | false => rw [if_neg (by simp [hls])] at h1; exact absurd h1 (by simp)
    | true =>
      rw [if_pos hls] at h1
      exact ⟨s, List.suffix_refl s, h1⟩
  | none =>
    simp only [h1] at h
    cases h2 : altSpace s with
    | some w =>
      simp only [h2, Option.some.injEq] at h
      subst h
      cases s with
      | nil => simp [altSpace] at h2
      | cons c r =>
        rw [altSpace] at h2
        by_cases hc : isPySpace c = true
        · rw [if_pos hc] at h2
          exact ⟨r, List.suffix_cons c r, h2⟩
        · rw [if_neg hc] at h2
          exact absurd h2 (by simp)
    | none =>
      simp only [h2] at h
      rw [altCompleted] at h
      cases hd : dropCI "completed".data s with
      | none => rw [hd] at h; exact absurd h (by simp)
      | some u =>
        rw [hd] at h
        cases u with
        | nil => exact absurd h (by simp)
        | cons sp rest =>
          simp only at h
          by_cases hspb : isPySpace sp = true
          · rw [if_pos hspb] at h
            exact ⟨rest, ((List.suffix_cons sp rest).trans
              (dropCI_suffix "completed".data hd)), h⟩
          · rw [if_neg hspb] at h
            exact absurd h (by simp)

theorem progressScan_run :
    ∀ (s : List Char) (prev : Option Char) {v : Nat},
      progressScan prev s = some v →
      ∃ t, t <:+ s ∧ digitsPercent t = some v
  | [], prev, v, h => by
    rw [progressScan] at h
    exact matchHere_run h
  | c :: r, prev, v, h => by
    simp only [progressScan] at h
    cases hm : matchHere prev (c :: r) with
    | some w =>
      simp only [hm, Option.some.injEq] at h
      subst h
      exact matchHere_run hm
    | none =>
      simp only [hm] at h
      obtain ⟨t, ht, hd⟩ := progressScan_run r (some c) h
      exact ⟨t, ht.trans (List.suffix_cons c r), hd⟩

/-- Claim C4 (corrected): `progress_percent` is the value of the first
digit run that is immediately followed by `'%'` AND immediately preceded
by the start of the string, a line start, or a whitespace character (the
`Completed` + whitespace form ends in such a whitespace character), and 0
when there is no such run; a digit run preceded by other characters does
not count (see `c4_counterexample`).  The concrete examples of the claim
hold: the `Completed 65%` text yields 65 and the empty text yields all
defaults. -/
theorem c4_progress_first_valid :
    (∀ o : Option (List Char),
      (extract_progress_signals o).progress_percent =
        (specFind none (o.getD [])).getD 0) ∧
    (extract_progress_signals (some
      "Completed 65% of the implementation. Currently coding...".data)
      ).progress_percent = 65 ∧
    extract_progress_signals (some "".data) = ⟨0, "in_progress", []⟩ := by
  refine ⟨?_, by decide, by decide⟩
  intro o
  cases o with
  | none => rfl
  | some t =>
    by_cases ht : t = []
    · subst ht; rfl
    · simp only [extract_progress_signals, if_neg ht, Option.getD_some]
      rw [scan_eq t none (fun c0 h _ _ => nomatch h)]

/-- Counterexample to C4 as stated: in `"abc50%"` the first integer
immediately followed by `'%'` is 50, but the source regex requires a line
start, whitespace or `Completed` before the digits, so the code reports
progress 0. -/
theorem c4_counterexample :
    (extract_progress_signals (some "abc50%".data)).progress_percent = 0 ∧
    naiveScan "abc50%".data = some 50 := by decide

/-- Claim C9 (corrected): `progress_percent` is a natural number, and it
is at most 100 whenever every digit run immediately followed by `'%'` in
the text denotes a value of at most 100; the source does not clamp, so a
text containing a larger percentage exceeds 100 (see
`c9_counterexample`). -/
theorem c9_progress_bounded (t : List Char)
    (h : ∀ u ∈ t.tails, (digitsPercent u).getD 0 ≤ 100) :
    (extract_progress_signals (some t)).progress_percent ≤ 100 := by
  by_cases ht : t = []
  · subst ht; decide
  · simp only [extract_progress_signals, if_neg ht]
    cases hps : progressScan none t with
    | none => simp
    | some v =>
      simp only [Option.getD_some]
      obtain ⟨u, hu, hd⟩ := progressScan_run t none hps
      have hb := h u ((List.mem_tails u t).2 hu)
      rw [hd] at hb
      simpa using hb

/-- Witness for C9's theorem at a concrete text. -/
theorem c9_progress_bounded_witness :
    (∀ u ∈ ("Completed 65% of the implementation.".data).tails,
      (digitsPercent u).getD 0 ≤ 100) ∧
    (extract_progress_signals (some
      "Completed 65% of the implementation.".data)).progress_percent ≤ 100 :=
  ⟨by decide, c9_progress_bounded _ (by decide)⟩

/-- Counterexample to C9 as stated: the text `" 200%"` yields
`progress_percent = 200`, outside 0-100. -/
theorem c9_counterexample :
    (extract_progress_signals (some " 200%".data)).progress_percent = 200 ∧
    ¬ ((extract_progress_signals (some " 200%".data)).progress_percent
        ≤ 100) := by decide

/-- Claim C5 (confirmed): the phase is decided by testing the four phase
indicator regexes in the fixed priority order complete > testing >
implementation > planning, returning the first whose keyword set matches
(each keyword `\b`-delimited, `verif` as a prefix), and `"in_progress"`
when none does (also for a missing or empty result text). -/
theorem c5_phase_priority (o : Option (List Char)) :
    (extract_progress_signals o).phase =
      (let t := o.getD []
       if anyKw [⟨"complete".data, true⟩, ⟨"done".data, true⟩,
                 ⟨"finish".data, true⟩] t then "complete"
       else if anyKw [⟨"test".data, true⟩, ⟨"debug".data, true⟩,
                      ⟨"verif".data, false⟩] t then "testing"
       else if anyKw [⟨"implement".data, true⟩, ⟨"building".data, true⟩,
                      ⟨"coding".data, true⟩, ⟨"writing".data, true⟩] t then
         "implementation"
       else if anyKw [⟨"planning".data, true⟩, ⟨"design".data, true⟩,
                      ⟨"architecture".data, true⟩, ⟨"spec".data, true⟩] t then
         "planning"
       else "in_progress") := by
  cases o with
  | none => decide
  | some t =>
    by_cases ht : t = []
    · subst ht; decide
    · simp only [extract_progress_signals, if_neg ht, Option.getD_some]
      rfl

/-! Helper lemmas for the work-summary accumulation (C6). -/

theorem joinSp_append_one :
    ∀ (acc : List (List Char)) (x : List Char),
      joinSp (acc ++ [x]) = if acc = [] then x else joinSp acc ++ ' ' :: x
  | [], x => rfl
  | [a], x => rfl
  | a :: b :: r2, x => by
    have ih := joinSp_append_one (b :: r2) x
    rw [if_neg (by simp)] at ih
    show joinSp (a :: b :: (r2 ++ [x])) = _
    rw [joinSp, show b :: (r2 ++ [x]) = (b :: r2) ++ [x] from rfl, ih,
      if_neg (by simp), joinSp]
    simp [List.append_assoc]

theorem joinSp_len_pos {acc : List (List Char)}
    (h : ∀ a ∈ acc, a ≠ []) (hne : acc ≠ []) : (joinSp acc).length ≠ 0 := by
  cases acc with
  | nil => exact absurd rfl hne
  | cons a r =>
    cases r with
    | nil =>
      have := h a (List.mem_cons_self a [])
      simpa [joinSp, List.length_eq_zero] using this
    | cons b r2 =>
      simp [joinSp]

theorem summaryLoop_spec :
    ∀ (ls acc : List (List Char)), (∀ a ∈ acc, a ≠ []) →
      summaryLoop acc ls = acc ++ specSummaryAux (joinSp acc).length ls
  | [], acc, _ => by simp [summaryLoop, specSummaryAux]
  | l :: r, acc, h => by
    rw [summaryLoop, specSummaryAux]
    by_cases h1 : pyStrip l = []
    · rw [if_pos h1, if_neg (by simp [h1])]
      simp
    · rw [if_neg h1]
      by_cases h2 : (joinSp acc).length + 1 + (pyStrip l).length < 200
      · rw [if_pos h2, if_pos (by simp [h1, h2])]
        rw [summaryLoop_spec r (acc ++ [pyStrip l])
          (by intro a ha
              rcases List.mem_append.1 ha with ha2 | ha2
              · exact h a ha2
              · rw [List.mem_singleton.1 ha2]; exact h1)]
        rw [joinSp_append_one]
        by_cases hacc : acc = []
        · subst hacc
          simp [joinSp]
        · rw [if_neg hacc,
            if_neg (joinSp_len_pos h hacc), List.length_append]
          rw [show (joinSp acc).length + (' ' :: pyStrip l).length =
              (joinSp acc).length + 1 + (pyStrip l).length from by
            simp only [List.length_cons]; omega]
          simp
      · rw [if_neg h2, if_neg (by simp [h2])]
        simp

/-- Claim C6 (corrected): the work summary is the space-join of the
stripped lines accumulated from the start of the text, a line being taken
only while it strips to something non-empty and the length of the join so
far plus one plus the line's length stays under 200 (so a first line
longer than 198 characters is rejected, and the first blank or over-long
line stops the accumulation), truncated to at most 200 characters; the
result never exceeds 200 characters.  The "joined length stays under 200
with no other stopping rule" reading fails on `c6_counterexample`. -/
theorem c6_summary_accumulation (o : Option (List Char)) :
    ((extract_progress_signals o).work_summary =
      (match o with
       | none => []
       | some t => if t = [] then [] else specSummary t)) ∧
    (extract_progress_signals o).work_summary.length ≤ 200 := by
  cases o with
  | none => exact ⟨rfl, by simp [extract_progress_signals]⟩
  | some t =>
    by_cases ht : t = []
    · subst ht
      exact ⟨rfl, by decide⟩
    · constructor
      · simp only [extract_progress_signals, if_neg ht, specSummary]
        rw [show summaryLoop [] (splitNl t) =
            [] ++ specSummaryAux (joinSp []).length (splitNl t) from
          summaryLoop_spec (splitNl t) [] (by simp)]
        rfl
      · simp only [extract_progress_signals, if_neg ht]
        exact List.length_take_le 200 _

/-- Counterexample to C6 as stated: on `"a\n\nb"` the source stops at the
blank middle line and returns `"a"`, while accumulating stripped lines
purely by joined length would return `"a  b"`. -/
theorem c6_counterexample :
    (extract_progress_signals (some "a\n\nb".data)).work_summary =
      "a".data ∧
    claimC6Summary "a\n\nb".data = "a  b".data := by decide

/-- Claim C1 (confirmed): the updates written by
`process_completed_agent_run` set `status = "blocked"` with non-null
`blockers` exactly when the envelope has an `error` field (and then the
interventions entry is absent, because the interpreter short-circuits);
with no error they set `status = "awaiting_input"` exactly when the
detected intervention list is non-empty; otherwise the `status` key is
absent from the updates, so the merge leaves the stored status
unchanged. -/
theorem c1_status_transition (o : Option Envelope) :
    ((build_status_updates o).status =
      match o.bind Envelope.error with
      | some _ => some "blocked"
      | none =>
        if detect_interventions (o.bind Envelope.result) ≠ [] then
          some "awaiting_input"
        else none) ∧
    ((build_status_updates o).blockers =
      (o.bind Envelope.error).map (fun m => ⟨"agent_error", m⟩)) ∧
    ((build_status_updates o).interventions =
      match o.bind Envelope.error with
      | some _ => none
      | none =>
        if detect_interventions (o.bind Envelope.result) ≠ [] then
          some (detect_interventions (o.bind Envelope.result))
        else none) := by
  cases o with
  | none => exact ⟨rfl, rfl, rfl⟩
  | some env =>
    cases env with
    | mk sid res err =>
      cases err with
      | none => exact ⟨rfl, rfl, rfl⟩
      | some e => exact ⟨rfl, rfl, rfl⟩

/-- Claim C10 (confirmed): on an envelope carrying both a session id and
an error, `process_agent_output` still returns that session id (it is
extracted before the error check), while interventions, progress, phase
and work summary are left at their empty defaults and the error is
reported. -/
theorem c10_session_id_on_error (env : Envelope) (sid e : List Char)
    (h1 : env.session_id = some sid) (h2 : env.error = some e) :
    process_agent_output (some env) =
      ⟨some sid, [], 0, "in_progress", [], some ⟨"agent_error", e⟩⟩ := by
  cases env with
  | mk s r er =>
    change s = some sid at h1
    change er = some e at h2
    subst h1
    subst h2
    rfl

/-- Witness for C10's theorem at a concrete envelope. -/
theorem c10_session_id_on_error_witness :
    process_agent_output (some ⟨some "sess1".data, some "done".data,
        some "boom".data⟩) =
      ⟨some "sess1".data, [], 0, "in_progress", [],
        some ⟨"agent_error", "boom".data⟩⟩ :=
  c10_session_id_on_error _ _ _ rfl rfl

/-! Helper lemmas for the Status Store merge (C2). -/

theorem find?_setField_ne {α : Type} :
    ∀ (fs : List (String × α)) (k k2 : String) (v : α), k2 ≠ k →
      (setField fs k v).find? (fun kv => kv.1 = k2) =
        fs.find? (fun kv => kv.1 = k2)
  | [], k, k2, v, h => by
    simp [setField, List.find?, Ne.symm h]
  | kv :: r, k, k2, v, h => by
    rw [setField]
    by_cases hk : kv.1 = k
    · rw [if_pos hk]
      have hne : ¬ (k = k2) := Ne.symm h
      have hne2 : ¬ (kv.1 = k2) := by rw [hk]; exact hne
      simp [List.find?, hne, hne2]
    · rw [if_neg hk]
      by_cases hk2 : kv.1 = k2
      · simp [List.find?, hk2]
      · simp only [List.find?, decide_eq_false hk2]
        exact find?_setField_ne r k k2 v h

theorem find?_setField_eq {α : Type} :
    ∀ (fs : List (String × α)) (k : String) (v : α),
      (setField fs k v).find? (fun kv => kv.1 = k) = some (k, v)
  | [], k, v => by simp [setField, List.find?]
  | kv :: r, k, v => by
    rw [setField]
    by_cases hk : kv.1 = k
    · rw [if_pos hk]
      simp [List.find?]
    · rw [if_neg hk]
      simp only [List.find?, decide_eq_false hk]
      exact find?_setField_eq r k v

theorem find?_overlay_not_mem {α : Type} :
    ∀ (upd : List (String × α)) (fs : List (String × α)) (k : String),
      k ∉ upd.map Prod.fst →
      (upd.foldl (fun fs2 kv => setField fs2 kv.1 kv.2) fs).find?
          (fun kv => kv.1 = k) =
        fs.find? (fun kv => kv.1 = k)
  | [], fs, k, _ => rfl
  | kv0 :: r, fs, k, h => by
    rw [List.foldl_cons]
    have h1 : k ≠ kv0.1 := by
      intro he
      exact h (by rw [List.map_cons]; exact he ▸ List.mem_cons_self _ _)
    rw [find?_overlay_not_mem r _ k
      (fun hm => h (by rw [List.map_cons]; exact List.mem_cons_of_mem _ hm))]
    exact find?_setField_ne fs kv0.1 k kv0.2 h1

theorem find?_overlay_mem {α : Type} :
    ∀ (upd : List (String × α)) (fs : List (String × α)) (k : String)
      (v : α), (upd.map Prod.fst).Nodup → (k, v) ∈ upd →
      (upd.foldl (fun fs2 kv => setField fs2 kv.1 kv.2) fs).find?
          (fun kv => kv.1 = k) = some (k, v)
  | [], fs, k, v, _, hm => absurd hm (by simp)
  | kv0 :: r, fs, k, v, hnd, hm => by
    rw [List.foldl_cons]
    rcases List.mem_cons.1 hm with he | hm2
    · subst he
      have hk : k ∉ r.map Prod.fst := by
        rw [List.map_cons, List.nodup_cons] at hnd
        exact hnd.1
      rw [find?_overlay_not_mem r _ k hk]
      exact find?_setField_eq fs k v
    · exact find?_overlay_mem r _ k v
        (by rw [List.map_cons, List.nodup_cons] at hnd; exact hnd.2) hm2

/-- Claim C2 (confirmed, modelled from the spec): the Status Store update
is a merge: fields not named by the update keep their prior value, fields
named take the new value, `last_update` is set to the write time, and in
particular updating with `a=1` and then with `b=2` yields a record holding
both. -/
theorem c2_store_update_merge {α : Type} (rec : StoreRecord α)
    (upd : List (String × α)) (now : Nat) (k : String) (v : α) :
    (k ∉ upd.map Prod.fst →
      storeGet (storeUpdate rec upd now) k = storeGet rec k) ∧
    ((upd.map Prod.fst).Nodup → (k, v) ∈ upd →
      storeGet (storeUpdate rec upd now) k = some v) ∧
    (storeUpdate rec upd now).last_update = now ∧
    storeGet (storeUpdate (storeUpdate (emptyRecord Nat) [("a", 1)] 1)
      [("b", 2)] 2) "a" = some 1 ∧
    storeGet (storeUpdate (storeUpdate (emptyRecord Nat) [("a", 1)] 1)
      [("b", 2)] 2) "b" = some 2 := by
  refine ⟨?_, ?_, rfl, by decide, by decide⟩
  · intro h
    unfold storeGet storeUpdate
    rw [find?_overlay_not_mem upd rec.fields k h]
  · intro hnd hm
    unfold storeGet storeUpdate
    rw [find?_overlay_mem upd rec.fields k v hnd hm]
    rfl

/-- Witness for C2's theorem at a concrete record and update. -/
theorem c2_store_update_merge_witness :
    storeGet (storeUpdate (⟨[("a", 1)], 0⟩ : StoreRecord Nat) [("b", 2)] 7)
        "a" = some 1 ∧
    storeGet (storeUpdate (⟨[("a", 1)], 0⟩ : StoreRecord Nat) [("b", 2)] 7)
        "b" = some 2 ∧
    (storeUpdate (⟨[("a", 1)], 0⟩ : StoreRecord Nat)
      [("b", 2)] 7).last_update = 7 :=
  ⟨((c2_store_update_merge ⟨[("a", 1)], 0⟩ [("b", 2)] 7 "a" 0).1
      (by decide)).trans (by decide),
   (c2_store_update_merge ⟨[("a", 1)], 0⟩ [("b", 2)] 7 "b" 2).2.1
      (by decide) (by decide),
   (c2_store_update_merge ⟨[("a", 1)], 0⟩ [("b", 2)] 7 "b" 2).2.2.1⟩

/-! Helper lemmas for intervention deduplication (C8). -/

theorem dedupBy_nodup :
    ∀ (l : List Intervention) (seen : List (List Char × String)),
      ((dedupBy seen l).map keyOf).Nodup ∧
      ∀ i ∈ dedupBy seen l, keyOf i ∉ seen
  | [], seen => by
    constructor
    · simp [dedupBy]
    · intro i hi
      simp [dedupBy] at hi
  | i :: r, seen => by
    rw [dedupBy]
    by_cases hk : keyOf i ∈ seen
    · rw [if_pos hk]
      exact dedupBy_nodup r seen
    · rw [if_neg hk]
      obtain ⟨hn, hs⟩ := dedupBy_nodup r (keyOf i :: seen)
      refine ⟨?_, ?_⟩
      · rw [List.map_cons, List.nodup_cons]
        refine ⟨?_, hn⟩
        intro hmem
        rcases List.mem_map.1 hmem with ⟨j, hj, he⟩
        exact hs j hj (he ▸ List.mem_cons_self _ _)
      · intro j hj
        rcases List.mem_cons.1 hj with he | hj2
        · subst he
          exact hk
        · intro hseen
          exact hs j hj2 (List.mem_cons_of_mem _ hseen)

theorem detect_interventions_nodup_keys (o : Option (List Char)) :
    ((detect_interventions o).map keyOf).Nodup := by
  cases o with
  | none => simp [detect_interventions]
  | some t =>
    by_cases ht : t = []
    · simp [detect_interventions, ht]
    · simp only [detect_interventions, if_neg ht]
      exact (dedupBy_nodup _ []).1

/-- Claim C8 (confirmed): the sample question text yields at least two
interventions, all of type `ask_user_question` and unanswered, and for
every text the returned list never contains two entries with the same
(type, question-or-description) pair. -/
theorem c8_intervention_detection :
    (2 ≤ (detect_interventions (some ("I found these tasks in the backlog. Should I execute them? Can you confirm that I should proceed with this change?".data))).length ∧
     ∀ i ∈ detect_interventions (some ("I found these tasks in the backlog. Should I execute them? Can you confirm that I should proceed with this change?".data)),
       i.itype = "ask_user_question" ∧ i.answered = false) ∧
    ∀ o : Option (List Char),
      (detect_interventions o).Pairwise
        (fun a b => ¬ (a.itype = b.itype ∧ a.payload = b.payload)) := by
  refine ⟨⟨by decide, by decide⟩, ?_⟩
  intro o
  have hnd := detect_interventions_nodup_keys o
  rw [List.Nodup, List.pairwise_map] at hnd
  refine hnd.imp ?_
  intro a b hab hco
  apply hab
  rw [keyOf, keyOf, hco.1, hco.2]

end Pluribus
